import Mathlib

/-!
Verification of the chart-file collector in `cli/helm/chart.go`.

The Go source reads an embedded Helm chart (an `embed.FS` tree) and turns it
into an ordered list of `loader.BufferedFile` records: `Chart.yaml`,
`values.yaml`, then every regular file under `templates/`, each named by the
path relative to the chart directory.  This file embeds, faithfully to the
source:

* the slash-path functions the source uses (`filepath.Clean`, `filepath.Join`,
  `filepath.Rel` with separator `/`), modelled at the level of character
  lists;
* the `embed.FS` interface (`ReadFile`, `ReadDir` with `fs.ValidPath`
  semantics) over an explicit immutable tree;
* `readFile`, `readChartFiles` and `FetchChartValues` / `a` from the source,
  the latter two instrumented with an explicit trace of the external calls
  they perform.
-/

namespace ConsulHelm

/-- Tokenise a character list on the slash separator, with `strings.Split`
semantics: the result is never empty, and empty tokens mark leading, trailing
or doubled separators (`"a//b"` gives `[a, ∅, b]`). -/
def splitSlashCh : List Char → List (List Char)
  | [] => [[]]
  | c :: cs =>
    if c = '/' then [] :: splitSlashCh cs
    else
      match splitSlashCh cs with
      | [] => [[c]]
      | t :: ts => (c :: t) :: ts

/-- Join tokens with the slash separator (`strings.Join(toks, "/")`). -/
def joinSlashCh : List (List Char) → List Char
  | [] => []
  | [t] => t
  | t :: ts => t ++ '/' :: joinSlashCh ts

theorem splitSlashCh_ne_nil (cs : List Char) : splitSlashCh cs ≠ [] := by
  induction cs with
  | nil => simp [splitSlashCh]
  | cons c cs ih =>
    simp only [splitSlashCh]
    split
    · simp
    · cases h : splitSlashCh cs with
      | nil => simp
      | cons t ts => simp

theorem splitSlashCh_no_slash (a : List Char) (h : '/' ∉ a) :
    splitSlashCh a = [a] := by
  induction a with
  | nil => simp [splitSlashCh]
  | cons c cs ih =>
    simp only [List.mem_cons, not_or] at h
    simp only [splitSlashCh]
    rw [if_neg (by exact fun hc => h.1 hc.symm)]
    rw [ih h.2]

theorem splitSlashCh_append_slash (a r : List Char) (h : '/' ∉ a) :
    splitSlashCh (a ++ '/' :: r) = a :: splitSlashCh r := by
  induction a with
  | nil => simp [splitSlashCh]
  | cons c cs ih =>
    simp only [List.mem_cons, not_or] at h
    simp only [List.cons_append, splitSlashCh]
    rw [if_neg (by exact fun hc => h.1 hc.symm)]
    simp only [List.append_eq]
    rw [ih h.2]

theorem joinSlashCh_cons (t : List Char) (ts : List (List Char)) (h : ts ≠ []) :
    joinSlashCh (t :: ts) = t ++ '/' :: joinSlashCh ts := by
  cases ts with
  | nil => exact absurd rfl h
  | cons u us => rfl

theorem joinSlashCh_append (xs ys : List (List Char)) (hx : xs ≠ []) (hy : ys ≠ []) :
    joinSlashCh (xs ++ ys) = joinSlashCh xs ++ '/' :: joinSlashCh ys := by
  induction xs with
  | nil => exact absurd rfl hx
  | cons t ts ih =>
    cases ts with
    | nil =>
      cases ys with
      | nil => exact absurd rfl hy
      | cons u us => simp [joinSlashCh]
    | cons u us =>
      rw [List.cons_append, joinSlashCh_cons t ((u :: us) ++ ys) (by simp),
        ih (by simp), joinSlashCh_cons t (u :: us) (by simp)]
      simp

/-- A token is a well-formed path element: nonempty, slash-free, and not a
dot element.  Directory-entry names in an embedded FS always have this shape. -/
def goodTok (t : List Char) : Bool :=
  !t.isEmpty && !t.contains '/' && t ≠ ['.'] && t ≠ ['.', '.']

theorem goodTok_iff {t : List Char} :
    goodTok t = true ↔ t ≠ [] ∧ '/' ∉ t ∧ t ≠ ['.'] ∧ t ≠ ['.', '.'] := by
  constructor
  · intro h
    simp [goodTok] at h
    exact ⟨h.1.1.1, h.1.1.2, h.1.2, h.2⟩
  · intro h
    simp [goodTok]
    exact ⟨⟨⟨h.1, h.2.1⟩, h.2.2.1⟩, h.2.2.2⟩

theorem goodTok_ne_nil {t : List Char} (h : goodTok t = true) : t ≠ [] :=
  (goodTok_iff.mp h).1

theorem goodTok_no_slash {t : List Char} (h : goodTok t = true) : '/' ∉ t :=
  (goodTok_iff.mp h).2.1

theorem splitSlashCh_joinSlashCh (ts : List (List Char)) (hne : ts ≠ [])
    (h : ∀ t ∈ ts, '/' ∉ t) :
    splitSlashCh (joinSlashCh ts) = ts := by
  induction ts with
  | nil => exact absurd rfl hne
  | cons t us ih =>
    cases us with
    | nil => simp [joinSlashCh, splitSlashCh_no_slash t (h t (by simp))]
    | cons u vs =>
      rw [joinSlashCh_cons t (u :: vs) (by simp)]
      rw [splitSlashCh_append_slash t _ (h t (by simp))]
      rw [ih (by simp) (fun x hx => h x (List.mem_cons_of_mem t hx))]

/-- Element loop of `filepath.Clean` (unix): drop empty and `.` tokens; a `..`
token pops the last real token, stays at the root of a rooted path, and is kept
at the head of a relative path.  `acc` holds the output tokens in reverse. -/
def cleanCore (rooted : Bool) : List (List Char) → List (List Char) → List (List Char)
  | acc, [] => acc.reverse
  | acc, t :: ts =>
    if t = [] ∨ t = ['.'] then cleanCore rooted acc ts
    else if t = ['.', '.'] then
      match acc with
      | [] => if rooted then cleanCore rooted [] ts else cleanCore rooted [t] ts
      | a :: more =>
        if a = ['.', '.'] then cleanCore rooted (t :: a :: more) ts
        else cleanCore rooted more ts
    else cleanCore rooted (t :: acc) ts

/-- `filepath.Clean` for slash-separated paths, on character lists. -/
def cleanCh (cs : List Char) : List Char :=
  if cs = [] then ['.']
  else
    let rooted := decide (cs.head? = some '/')
    match cleanCore rooted [] (splitSlashCh cs) with
    | [] => if rooted then ['/'] else ['.']
    | t :: ts => if rooted then '/' :: joinSlashCh (t :: ts) else joinSlashCh (t :: ts)

/-- `filepath.Join` for slash-separated paths, on character lists: skip leading
empty parts, join the rest with `/` and clean the result (empty if every part
is empty). -/
def joinGoCh : List (List Char) → List Char
  | [] => []
  | p :: rest => if p = [] then joinGoCh rest else cleanCh (joinSlashCh (p :: rest))

/-- Strip the common token prefix of two token lists, returning both residues.
This mirrors the word-comparison loop of `filepath.Rel`: on cleaned inputs the
loop stops exactly at the first differing token (an exhausted side reads as an
empty token, which can never equal a remaining token of the cleaned other
side). -/
def stripCommon : List (List Char) → List (List Char) → List (List Char) × List (List Char)
  | b :: bs, t :: ts => if b = t then stripCommon bs ts else (b :: bs, t :: ts)
  | bs, ts => (bs, ts)

/-- The `..(/..)*` chain `filepath.Rel` emits: `dotDots n` is one `..` followed
by `n` further `/..` groups. -/
def dotDots : Nat → List Char
  | 0 => ['.', '.']
  | n + 1 => dotDots n ++ ['/', '.', '.']

/-- `filepath.Rel` for slash-separated paths, on character lists.  Follows the
source structure: clean both paths, answer `.` on equality, reject a
rooted/relative mix, strip the common token prefix, reject a `..` base residue,
and otherwise climb with `..` groups for the remaining base tokens before
descending into the target residue. -/
def relCh (basepath targpath : List Char) : Except Unit (List Char) :=
  let base := cleanCh basepath
  let targ := cleanCh targpath
  if targ = base then Except.ok ['.']
  else
    let base := if base = ['.'] then [] else base
    let baseSlashed := decide (base.head? = some '/')
    let targSlashed := decide (targ.head? = some '/')
    if baseSlashed ≠ targSlashed then Except.error ()
    else
      let bs := if base = [] then [] else splitSlashCh base
      let ts := splitSlashCh targ
      let sc := stripCommon bs ts
      if sc.1.head? = some ['.', '.'] then Except.error ()
      else
        let baseLeft := joinSlashCh sc.1
        let targLeft := joinSlashCh sc.2
        if baseLeft ≠ [] then
          let dots := dotDots (baseLeft.count '/')
          if targLeft ≠ [] then Except.ok (dots ++ '/' :: targLeft)
          else Except.ok dots
        else Except.ok targLeft

theorem cleanCore_good (rooted : Bool) (ts : List (List Char))
    (h : ∀ t ∈ ts, goodTok t = true) (acc : List (List Char)) :
    cleanCore rooted acc ts = acc.reverse ++ ts := by
  induction ts generalizing acc with
  | nil => simp [cleanCore]
  | cons t us ih =>
    have hg := goodTok_iff.mp (h t (by simp))
    have hne : ¬(t = [] ∨ t = ['.']) := by
      rintro (h1 | h1)
      · exact hg.1 h1
      · exact hg.2.2.1 h1
    have hdd : ¬t = ['.', '.'] := hg.2.2.2
    simp only [cleanCore, if_neg hne, if_neg hdd]
    rw [ih (fun x hx => h x (List.mem_cons_of_mem t hx))]
    simp

theorem head_joinSlashCh (t : List Char) (ts : List (List Char)) (ht : t ≠ []) :
    (joinSlashCh (t :: ts)).head? = t.head? := by
  cases ts with
  | nil => rfl
  | cons u us =>
    rw [joinSlashCh_cons t (u :: us) (by simp)]
    cases t with
    | nil => exact absurd rfl ht
    | cons c cs => rfl

theorem joinSlashCh_good_ne_nil (ts : List (List Char)) (hne : ts ≠ [])
    (h : ∀ t ∈ ts, goodTok t = true) : joinSlashCh ts ≠ [] := by
  cases ts with
  | nil => exact absurd rfl hne
  | cons t us =>
    have ht := goodTok_ne_nil (h t (by simp))
    cases us with
    | nil => simpa [joinSlashCh] using ht
    | cons u vs =>
      rw [joinSlashCh_cons t (u :: vs) (by simp)]
      intro hcontra
      rcases List.append_eq_nil.mp hcontra with ⟨h1, h2⟩
      exact ht h1

theorem head_join_good_ne_slash (ts : List (List Char)) (hne : ts ≠ [])
    (h : ∀ t ∈ ts, goodTok t = true) :
    ¬((joinSlashCh ts).head? = some '/') := by
  rcases ts with _ | ⟨t, us⟩
  · exact absurd rfl hne
  have ht : goodTok t = true := h t (by simp)
  rw [head_joinSlashCh t us (goodTok_ne_nil ht)]
  rcases t with _ | ⟨c, cs⟩
  · exact absurd rfl (goodTok_ne_nil ht)
  · intro hc
    simp only [List.head?_cons, Option.some.injEq] at hc
    exact goodTok_no_slash ht (by simp [hc])

/-- Cleaning a join of good tokens is the identity. -/
theorem cleanCh_join_good (ts : List (List Char)) (hne : ts ≠ [])
    (h : ∀ t ∈ ts, goodTok t = true) :
    cleanCh (joinSlashCh ts) = joinSlashCh ts := by
  rcases ts with _ | ⟨t, us⟩
  · exact absurd rfl hne
  have hj : joinSlashCh (t :: us) ≠ [] := joinSlashCh_good_ne_nil _ (by simp) h
  have hroot : ¬((joinSlashCh (t :: us)).head? = some '/') :=
    head_join_good_ne_slash _ (by simp) h
  have hsplit : splitSlashCh (joinSlashCh (t :: us)) = t :: us :=
    splitSlashCh_joinSlashCh _ (by simp) (fun x hx => goodTok_no_slash (h x hx))
  unfold cleanCh
  rw [if_neg hj]
  simp only [hsplit, decide_eq_false hroot]
  rw [cleanCore_good false (t :: us) h []]
  simp

theorem stripCommon_prefix (xs ys : List (List Char)) :
    stripCommon xs (xs ++ ys) = ([], ys) := by
  induction xs with
  | nil => cases ys <;> rfl
  | cons x xs ih => simpa [stripCommon] using ih

/-- On a well-formed chart directory and a well-formed relative suffix,
`filepath.Rel` recovers exactly the suffix, and in particular does not fail. -/
theorem relCh_good (es fs : List (List Char)) (hes : es ≠ []) (hfs : fs ≠ [])
    (hges : ∀ t ∈ es, goodTok t = true) (hgfs : ∀ t ∈ fs, goodTok t = true) :
    relCh (joinSlashCh es) (joinSlashCh (es ++ fs)) = Except.ok (joinSlashCh fs) := by
  have hgall : ∀ t ∈ es ++ fs, goodTok t = true := by
    intro t ht
    rcases List.mem_append.mp ht with h | h
    · exact hges t h
    · exact hgfs t h
  have hne : es ++ fs ≠ [] := by simp [hes]
  have hce : cleanCh (joinSlashCh es) = joinSlashCh es := cleanCh_join_good es hes hges
  have hct : cleanCh (joinSlashCh (es ++ fs)) = joinSlashCh (es ++ fs) :=
    cleanCh_join_good _ hne hgall
  have happ : joinSlashCh (es ++ fs) = joinSlashCh es ++ '/' :: joinSlashCh fs :=
    joinSlashCh_append es fs hes hfs
  have hneq : joinSlashCh (es ++ fs) ≠ joinSlashCh es := by
    rw [happ]
    simp
  have hse : splitSlashCh (joinSlashCh es) = es :=
    splitSlashCh_joinSlashCh es hes (fun t ht => goodTok_no_slash (hges t ht))
  have hdot : joinSlashCh es ≠ ['.'] := by
    intro hd
    have h1 := hse
    rw [hd, splitSlashCh_no_slash ['.'] (by simp)] at h1
    have : goodTok ['.'] = true := hges ['.'] (by rw [← h1]; simp)
    exact (goodTok_iff.mp this).2.2.1 rfl
  have hbslash : ¬((joinSlashCh es).head? = some '/') := head_join_good_ne_slash es hes hges
  have htslash : ¬((joinSlashCh (es ++ fs)).head? = some '/') :=
    head_join_good_ne_slash _ hne hgall
  have hjne : joinSlashCh es ≠ [] := joinSlashCh_good_ne_nil es hes hges
  have hst : splitSlashCh (joinSlashCh (es ++ fs)) = es ++ fs :=
    splitSlashCh_joinSlashCh _ hne (fun t ht => goodTok_no_slash (hgall t ht))
  simp only [relCh]
  rw [hct, hce]
  rw [if_neg hneq, if_neg hdot]
  rw [decide_eq_false hbslash, decide_eq_false htslash]
  rw [if_neg (by simp)]
  rw [if_neg hjne]
  rw [hse, hst, stripCommon_prefix]
  simp [joinSlashCh]

theorem joinGoCh_two (es fs : List (List Char)) (hes : es ≠ []) (hfs : fs ≠ [])
    (hges : ∀ t ∈ es, goodTok t = true) (hgfs : ∀ t ∈ fs, goodTok t = true) :
    joinGoCh [joinSlashCh es, joinSlashCh fs] = joinSlashCh (es ++ fs) := by
  have hgall : ∀ t ∈ es ++ fs, goodTok t = true := by
    intro t ht
    rcases List.mem_append.mp ht with h | h
    · exact hges t h
    · exact hgfs t h
  have hjne : joinSlashCh es ≠ [] := joinSlashCh_good_ne_nil es hes hges
  simp only [joinGoCh, if_neg hjne]
  rw [show joinSlashCh [joinSlashCh es, joinSlashCh fs]
      = joinSlashCh es ++ '/' :: joinSlashCh fs from rfl]
  rw [← joinSlashCh_append es fs hes hfs]
  exact cleanCh_join_good _ (by simp [hes]) hgall

theorem joinGoCh_three (es : List (List Char)) (t n : List Char) (hes : es ≠ [])
    (hges : ∀ x ∈ es, goodTok x = true) (hgt : goodTok t = true)
    (hgn : goodTok n = true) :
    joinGoCh [joinSlashCh es, t, n] = joinSlashCh (es ++ [t, n]) := by
  have hgall : ∀ x ∈ es ++ [t, n], goodTok x = true := by
    intro x hx
    rcases List.mem_append.mp hx with h | h
    · exact hges x h
    · rcases List.mem_cons.mp h with h1 | h1
      · exact h1 ▸ hgt
      · rcases List.mem_cons.mp h1 with h2 | h2
        · exact h2 ▸ hgn
        · simp at h2
  have hjne : joinSlashCh es ≠ [] := joinSlashCh_good_ne_nil es hes hges
  simp only [joinGoCh, if_neg hjne]
  rw [show joinSlashCh [joinSlashCh es, t, n]
      = joinSlashCh es ++ '/' :: joinSlashCh [t, n] from rfl]
  rw [← joinSlashCh_append es [t, n] hes (by simp)]
  exact cleanCh_join_good _ (by simp [hes]) hgall

/-! ## The embedded file system (`embed.FS`) -/

mutual
/-- A node of an embedded read-only file tree (`embed.FS`): a regular file with
raw byte content (modelled as a string of bytes) or a directory with an ordered
list of named children. -/
inductive FsNode where
  | file (data : String)
  | dir (entries : FsEntries)

/-- Ordered named children of a directory node. -/
inductive FsEntries where
  | nil
  | cons (name : String) (child : FsNode) (rest : FsEntries)
end

/-- Whether a node is a directory. -/
def FsNode.isDirB : FsNode → Bool
  | .file _ => false
  | .dir _ => true

mutual
/-- Resolve a list of path elements against a node, descending one named child
per element — how `embed.FS` looks a path up. -/
def FsNode.resolve : FsNode → List String → Option FsNode
  | n, [] => some n
  | .file _, _ :: _ => none
  | .dir es, e :: rest => FsEntries.resolveIn es e rest

/-- Find the child with the given name among the entries and keep resolving. -/
def FsEntries.resolveIn : FsEntries → String → List String → Option FsNode
  | .nil, _, _ => none
  | .cons n c others, e, rest =>
    if n = e then FsNode.resolve c rest else FsEntries.resolveIn others e rest
end

/-- Go's `fs.ValidPath`: `"."` is the root, and otherwise every
slash-separated element must be nonempty and distinct from `.` and `..`. -/
def validPath (s : String) : Bool :=
  s = "." || (splitSlashCh s.data).all (fun t => !t.isEmpty && t ≠ ['.'] && t ≠ ['.', '.'])

/-- Elements of a slash path as the embedded FS sees them (`"."` is the root). -/
def pathElems (s : String) : List String :=
  if s = "." then [] else (splitSlashCh s.data).map String.mk

deriving instance DecidableEq for Except

/-- Error outcomes of the embedded-FS reads and of path relativization. -/
inductive FsError where
  | notFound (path : String)
  | isDirectory (path : String)
  | notDirectory (path : String)
  | relError (basepath targpath : String)
deriving DecidableEq

/-- `embed.FS.ReadFile`: fails on an invalid or missing path and on a
directory; otherwise returns the file's raw bytes. -/
def FsNode.readFileBytes (root : FsNode) (name : String) : Except FsError String :=
  if validPath name then
    match root.resolve (pathElems name) with
    | some (.file d) => Except.ok d
    | some (.dir _) => Except.error (FsError.isDirectory name)
    | none => Except.error (FsError.notFound name)
  else Except.error (FsError.notFound name)

/-- One entry of a directory listing (`fs.DirEntry`): the base name and
whether the entry is itself a directory. -/
structure DirEntry where
  name : String
  isDir : Bool
deriving DecidableEq

/-- The listing a directory node yields, in stored order. -/
def FsEntries.listing : FsEntries → List DirEntry
  | .nil => []
  | .cons n c rest => ⟨n, c.isDirB⟩ :: FsEntries.listing rest

/-- `embed.FS.ReadDir`: fails on an invalid or missing path and on a regular
file; otherwise returns the immediate entries in stored order. -/
def FsNode.readDir (root : FsNode) (name : String) : Except FsError (List DirEntry) :=
  if validPath name then
    match root.resolve (pathElems name) with
    | some (.dir es) => Except.ok es.listing
    | some (.file _) => Except.error (FsError.notDirectory name)
    | none => Except.error (FsError.notFound name)
  else Except.error (FsError.notFound name)

/-- A well-formed entry name: a single nonempty slash-free non-dot path
element, as `embed.FS` guarantees for every name it stores. -/
def goodName (s : String) : Bool := goodTok s.data

/-- Whether the entries contain the given name. -/
def FsEntries.hasName : FsEntries → String → Bool
  | .nil, _ => false
  | .cons n _ rest, e => n = e || FsEntries.hasName rest e

mutual
/-- Well-formedness of an embedded tree, an invariant every real `embed.FS`
satisfies: entry names are single path elements and are distinct within each
directory. -/
def FsNode.wf : FsNode → Bool
  | .file _ => true
  | .dir es => FsEntries.wfAll es

/-- Well-formedness of a directory's entries. -/
def FsEntries.wfAll : FsEntries → Bool
  | .nil => true
  | .cons n c rest =>
    goodName n && !FsEntries.hasName rest n && FsNode.wf c && FsEntries.wfAll rest
end

/-! ## The chart-file collector (`cli/helm/chart.go`) -/

/-- `filepath.Join` on strings, slash separator. -/
def joinPath (parts : List String) : String :=
  ⟨joinGoCh (parts.map String.data)⟩

/-- `filepath.Rel` on strings; a failure is reported as `FsError.relError`. -/
def relPath (basepath targpath : String) : Except FsError String :=
  match relCh basepath.data targpath.data with
  | Except.ok cs => Except.ok ⟨cs⟩
  | Except.error _ => Except.error (FsError.relError basepath targpath)

/-- `chartFileName` from the source. -/
def chartFileName : String := "Chart.yaml"

/-- `valuesFileName` from the source. -/
def valuesFileName : String := "values.yaml"

/-- `templatesDirName` from the source. -/
def templatesDirName : String := "templates"

/-- `loader.BufferedFile`: one chart file as handed to the Helm chart loader,
a relative name plus the raw content. -/
structure BufferedFile where
  Name : String
  Data : String
deriving DecidableEq

/-- `readFile` from the source: read the bytes at `filename`, relativize the
name against the chart directory `pathBase`, and return the buffered file;
either step's error is propagated. -/
def readFile (chart : FsNode) (filename pathBase : String) :
    Except FsError BufferedFile := do
  let bytes ← chart.readFileBytes filename
  let r ← relPath pathBase filename
  pure { Name := r, Data := bytes }

/-- Required-file loop of `readChartFiles`: read each named file at the chart
root in the given order, aborting on the first failure. -/
def readRequired (chart : FsNode) (chartDirName : String) :
    List String → Except FsError (List BufferedFile)
  | [] => Except.ok []
  | f :: rest => do
    let file ← readFile chart (joinPath [chartDirName, f]) chartDirName
    let files ← readRequired chart chartDirName rest
    pure (file :: files)

/-- Template loop of `readChartFiles`: walk the listing in order, skip entries
that are directories, read every regular file, aborting on the first failure. -/
def readTemplates (chart : FsNode) (chartDirName : String) :
    List DirEntry → Except FsError (List BufferedFile)
  | [] => Except.ok []
  | f :: rest =>
    if f.isDir then readTemplates chart chartDirName rest
    else do
      let file ←
        readFile chart (joinPath [chartDirName, templatesDirName, f.name]) chartDirName
      let files ← readTemplates chart chartDirName rest
      pure (file :: files)

/-- `readChartFiles` from the source: `Chart.yaml` and `values.yaml` first,
then every regular file under `templates/`, in listing order; any failure
aborts the whole collection. -/
def readChartFiles (chart : FsNode) (chartDirName : String) :
    Except FsError (List BufferedFile) := do
  let required ← readRequired chart chartDirName [chartFileName, valuesFileName]
  let dirs ← chart.readDir (joinPath [chartDirName, templatesDirName])
  let tmpl ← readTemplates chart chartDirName dirs
  pure (required ++ tmpl)

/-- Whether an `Except` result is a success. -/
def exceptOk {ε α : Type} : Except ε α → Bool
  | Except.ok _ => true
  | Except.error _ => false

/-- The tree holds a valid chart at `chartDirName`: both required files are
readable at the chart root and the templates directory can be listed. -/
def validChartAt (chart : FsNode) (chartDirName : String) : Bool :=
  exceptOk (chart.readFileBytes (joinPath [chartDirName, chartFileName])) &&
  exceptOk (chart.readFileBytes (joinPath [chartDirName, valuesFileName])) &&
  exceptOk (chart.readDir (joinPath [chartDirName, templatesDirName]))

/-! ## The release-values fetch (`FetchChartValues` and `a`) -/

/-- A Helm release as the status query returns it; only its recorded
configuration values matter here. -/
structure Release (V : Type) where
  Config : V

/-- One external call made while fetching chart values, recorded for the
effect-level claims: configuration initialization for a namespace, or a status
query for a release name against a configuration. -/
inductive HelmCall (Cfg : Type) where
  | initConfig (ns : String)
  | statusQuery (cfg : Cfg) (name : String)
deriving DecidableEq

/-- The external collaborators `FetchChartValues` talks to.
`initActionConfig` is modelled from the spec: `InitActionConfig` is repository
code outside the visible sources, and per the spec it "opens a
configuration/connection context for the release's namespace", yielding an
action configuration or an error.  `statusRun` is the Helm SDK status query
(`action.NewStatus(cfg)` followed by `status.Run(name)`), yielding the release
or an error.  `newConfig` is the fresh `new(action.Configuration)` value the
source allocates before initialization. -/
structure HelmEnv (Cfg E V : Type) where
  initActionConfig : Cfg → String → Except E Cfg
  statusRun : Cfg → String → Except E (Release V)
  newConfig : Cfg

/-- `FetchChartValues` from the source, instrumented with the list of external
calls it performs: initialize the action configuration for the namespace,
propagating failure; then run a single status query for the release name,
propagating failure; on success return the release's recorded configuration
values. -/
def FetchChartValues {Cfg E V : Type} (env : HelmEnv Cfg E V) (ns name : String) :
    Except E V × List (HelmCall Cfg) :=
  match env.initActionConfig env.newConfig ns with
  | Except.error err => (Except.error err, [HelmCall.initConfig ns])
  | Except.ok cfg =>
    match env.statusRun cfg name with
    | Except.error err =>
      (Except.error err, [HelmCall.initConfig ns, HelmCall.statusQuery cfg name])
    | Except.ok release =>
      (Except.ok release.Config, [HelmCall.initConfig ns, HelmCall.statusQuery cfg name])

/-- The unexported helper `a` from the source: run the status query for the
release name against the given configuration and return the release's recorded
configuration values, propagating failure. -/
def a {Cfg E V : Type} (env : HelmEnv Cfg E V) (config : Cfg) (name : String) :
    Except E V :=
  match env.statusRun config name with
  | Except.error err => Except.error err
  | Except.ok release => Except.ok release.Config

/-- Induction principle for directory entries alone (the mutual recursor needs
both motives; entry-spine induction is all the proofs below need). -/
def FsEntries.inductionOn {motive : FsEntries → Prop} (es : FsEntries)
    (nil : motive FsEntries.nil)
    (cons : ∀ n c rest, motive rest → motive (FsEntries.cons n c rest)) :
    motive es :=
  match es with
  | FsEntries.nil => nil
  | FsEntries.cons n c rest => cons n c rest (FsEntries.inductionOn rest nil cons)

/-! ## Path bookkeeping for well-formed chart directories -/

theorem joinSlashCh_splitSlashCh (cs : List Char) :
    joinSlashCh (splitSlashCh cs) = cs := by
  induction cs with
  | nil => rfl
  | cons c cs ih =>
    by_cases hc : c = '/'
    · subst hc
      have hs : splitSlashCh ('/' :: cs) = [] :: splitSlashCh cs := by
        simp [splitSlashCh]
      rw [hs, joinSlashCh_cons [] _ (splitSlashCh_ne_nil cs)]
      simp [ih]
    · simp only [splitSlashCh, if_neg hc]
      rcases h : splitSlashCh cs with _ | ⟨t, ts⟩
      · exact absurd h (splitSlashCh_ne_nil cs)
      · rw [h] at ih
        cases ts with
        | nil =>
          simp only [joinSlashCh] at ih ⊢
          rw [ih]
        | cons u us =>
          rw [joinSlashCh_cons (c :: t) (u :: us) (by simp)]
          rw [joinSlashCh_cons t (u :: us) (by simp)] at ih
          simp only [List.cons_append]
          rw [ih]

/-- Every slash-token of the path is a well-formed element: the path is a
clean, relative, dot-free slash path, as chart directory names are. -/
def goodPath (s : String) : Bool :=
  (splitSlashCh s.data).all goodTok

theorem goodPath_toks {s : String} (h : goodPath s = true) :
    ∀ t ∈ splitSlashCh s.data, goodTok t = true := by
  simpa [goodPath, List.all_eq_true] using h

theorem data_eq_join (s : String) : s.data = joinSlashCh (splitSlashCh s.data) :=
  (joinSlashCh_splitSlashCh s.data).symm

theorem good_ne_dot {s : String} (h : ∀ t ∈ splitSlashCh s.data, goodTok t = true) :
    s ≠ "." := by
  intro he
  subst he
  have hm : ['.'] ∈ splitSlashCh (String.data ".") := by decide
  exact absurd (h ['.'] hm) (by decide)

theorem validPath_of_good {s : String} (h : ∀ t ∈ splitSlashCh s.data, goodTok t = true) :
    validPath s = true := by
  simp only [validPath, Bool.or_eq_true, List.all_eq_true]
  refine Or.inr (fun t ht => ?_)
  have hg := goodTok_iff.mp (h t ht)
  simp [List.isEmpty_iff, hg.1, hg.2.2.1, hg.2.2.2]

theorem singleton_good {f : String} (hf : goodName f = true) :
    ∀ t ∈ [f.data], goodTok t = true := by
  intro t ht
  simp only [List.mem_singleton] at ht
  subst ht
  exact hf

theorem relCh_dir_single (dir f : String) (hdir : goodPath dir = true)
    (hf : goodName f = true) :
    relCh dir.data (joinPath [dir, f]).data = Except.ok f.data := by
  obtain ⟨es, hes⟩ : ∃ es, splitSlashCh dir.data = es := ⟨_, rfl⟩
  have hges : ∀ t ∈ es, goodTok t = true := hes ▸ goodPath_toks hdir
  have hesne : es ≠ [] := hes ▸ splitSlashCh_ne_nil dir.data
  have hd : dir.data = joinSlashCh es := by
    rw [← hes]
    exact data_eq_join dir
  have hjp : (joinPath [dir, f]).data = joinSlashCh (es ++ [f.data]) := by
    show joinGoCh [dir.data, f.data] = _
    rw [hd]
    exact joinGoCh_two es [f.data] hesne (by simp) hges (singleton_good hf)
  rw [hjp, hd]
  simpa using relCh_good es [f.data] hesne (by simp) hges (singleton_good hf)

theorem data_append (s t : String) : (s ++ t).data = s.data ++ t.data := rfl

theorem relCh_dir_tmpl (dir n : String) (hdir : goodPath dir = true)
    (hn : goodName n = true) :
    relCh dir.data (joinPath [dir, templatesDirName, n]).data =
      Except.ok (templatesDirName ++ "/" ++ n).data := by
  obtain ⟨es, hes⟩ : ∃ es, splitSlashCh dir.data = es := ⟨_, rfl⟩
  have hges : ∀ t ∈ es, goodTok t = true := hes ▸ goodPath_toks hdir
  have hesne : es ≠ [] := hes ▸ splitSlashCh_ne_nil dir.data
  have hd : dir.data = joinSlashCh es := by
    rw [← hes]
    exact data_eq_join dir
  have htg : goodTok templatesDirName.data = true := by decide
  have hjp : (joinPath [dir, templatesDirName, n]).data =
      joinSlashCh (es ++ [templatesDirName.data, n.data]) := by
    show joinGoCh [dir.data, templatesDirName.data, n.data] = _
    rw [hd]
    exact joinGoCh_three es templatesDirName.data n.data hesne hges htg hn
  have hpair : ∀ t ∈ [templatesDirName.data, n.data], goodTok t = true := by
    intro t ht
    rcases List.mem_cons.mp ht with h1 | h1
    · exact h1 ▸ htg
    · simp only [List.mem_singleton] at h1
      exact h1 ▸ hn
  have hres := relCh_good es [templatesDirName.data, n.data] hesne (by simp) hges hpair
  rw [hjp, hd, hres]
  have hname : joinSlashCh [templatesDirName.data, n.data] =
      (templatesDirName ++ "/" ++ n).data := by
    show templatesDirName.data ++ '/' :: n.data = _
    rw [data_append, data_append]
    rw [show ("/" : String).data = ['/'] from rfl]
    simp
  rw [hname]

theorem readFile_root_file (chart : FsNode) (dir f : String)
    (hdir : goodPath dir = true) (hf : goodName f = true) :
    readFile chart (joinPath [dir, f]) dir =
      (chart.readFileBytes (joinPath [dir, f])).map
        (fun b => { Name := f, Data := b }) := by
  have hrel : relPath dir (joinPath [dir, f]) = Except.ok f := by
    unfold relPath
    rw [relCh_dir_single dir f hdir hf]
  unfold readFile
  cases hb : chart.readFileBytes (joinPath [dir, f]) with
  | error e => rfl
  | ok b =>
    rw [hrel]
    rfl

theorem readFile_tmpl_file (chart : FsNode) (dir n : String)
    (hdir : goodPath dir = true) (hn : goodName n = true) :
    readFile chart (joinPath [dir, templatesDirName, n]) dir =
      (chart.readFileBytes (joinPath [dir, templatesDirName, n])).map
        (fun b => { Name := templatesDirName ++ "/" ++ n, Data := b }) := by
  have hrel : relPath dir (joinPath [dir, templatesDirName, n]) =
      Except.ok (templatesDirName ++ "/" ++ n) := by
    unfold relPath
    rw [relCh_dir_tmpl dir n hdir hn]
  unfold readFile
  cases hb : chart.readFileBytes (joinPath [dir, templatesDirName, n]) with
  | error e => rfl
  | ok b =>
    rw [hrel]
    rfl

/-! ## Resolution and well-formedness lemmas -/

theorem resolve_append (root : FsNode) (xs ys : List String) :
    root.resolve (xs ++ ys) = (root.resolve xs).bind (fun n => n.resolve ys) := by
  induction xs generalizing root with
  | nil => simp [FsNode.resolve]
  | cons e xs ih =>
    cases root with
    | file d => simp [FsNode.resolve]
    | dir es =>
      simp only [List.cons_append]
      show FsEntries.resolveIn es e (xs ++ ys) =
        (FsEntries.resolveIn es e xs).bind (fun n => n.resolve ys)
      induction es using FsEntries.inductionOn with
      | nil => simp [FsEntries.resolveIn]
      | cons n c rest ihe =>
        simp only [FsEntries.resolveIn]
        by_cases hn : n = e
        · rw [if_pos hn, if_pos hn]
          exact ih c
        · rw [if_neg hn, if_neg hn]
          exact ihe

/-- The entries as an association list, in stored order. -/
def FsEntries.toList : FsEntries → List (String × FsNode)
  | FsEntries.nil => []
  | FsEntries.cons n c rest => (n, c) :: FsEntries.toList rest

theorem wfAll_parts {n : String} {c : FsNode} {rest : FsEntries}
    (h : FsEntries.wfAll (FsEntries.cons n c rest) = true) :
    goodName n = true ∧ FsEntries.hasName rest n = false ∧ FsNode.wf c = true ∧
      FsEntries.wfAll rest = true := by
  simp only [FsEntries.wfAll, Bool.and_eq_true, Bool.not_eq_true'] at h
  exact ⟨h.1.1.1, h.1.1.2, h.1.2, h.2⟩

theorem hasName_of_mem {es : FsEntries} {n : String} {c : FsNode}
    (hmem : (n, c) ∈ es.toList) : FsEntries.hasName es n = true := by
  induction es using FsEntries.inductionOn with
  | nil => simp [FsEntries.toList] at hmem
  | cons m d rest ih =>
    simp only [FsEntries.toList, List.mem_cons] at hmem
    simp only [FsEntries.hasName, Bool.or_eq_true]
    rcases hmem with heq | hmem
    · left
      have : n = m := congrArg Prod.fst heq
      simp [this]
    · right
      exact ih hmem

theorem resolveIn_mem {es : FsEntries} {n : String} {c : FsNode}
    (hwf : es.wfAll = true) (hmem : (n, c) ∈ es.toList) :
    FsEntries.resolveIn es n [] = some c := by
  induction es using FsEntries.inductionOn with
  | nil => simp [FsEntries.toList] at hmem
  | cons m d rest ih =>
    obtain ⟨hg, hdup, hwc, hwr⟩ := wfAll_parts hwf
    simp only [FsEntries.toList, List.mem_cons] at hmem
    simp only [FsEntries.resolveIn]
    rcases hmem with heq | hmem
    · have h1 : n = m := congrArg Prod.fst heq
      have h2 : c = d := congrArg Prod.snd heq
      rw [if_pos h1.symm, ← h2]
      cases c <;> rfl
    · by_cases hmn : m = n
      · exfalso
        subst hmn
        rw [hasName_of_mem hmem] at hdup
        exact Bool.noConfusion hdup
      · rw [if_neg hmn]
        exact ih hwr hmem

theorem wf_entry {es : FsEntries} {n : String} {c : FsNode}
    (hwf : es.wfAll = true) (hmem : (n, c) ∈ es.toList) :
    goodName n = true ∧ FsNode.wf c = true := by
  induction es using FsEntries.inductionOn with
  | nil => simp [FsEntries.toList] at hmem
  | cons m d rest ih =>
    obtain ⟨hg, hdup, hwc, hwr⟩ := wfAll_parts hwf
    simp only [FsEntries.toList, List.mem_cons] at hmem
    rcases hmem with heq | hmem
    · have h1 : n = m := congrArg Prod.fst heq
      have h2 : c = d := congrArg Prod.snd heq
      subst h1
      subst h2
      exact ⟨hg, hwc⟩
    · exact ih hwr hmem

theorem wf_resolve (xs : List String) (root node : FsNode)
    (hwf : root.wf = true) (h : root.resolve xs = some node) : node.wf = true := by
  induction xs generalizing root with
  | nil =>
    simp only [FsNode.resolve, Option.some.injEq] at h
    exact h ▸ hwf
  | cons e xs ih =>
    cases root with
    | file d => simp [FsNode.resolve] at h
    | dir es =>
      replace h : FsEntries.resolveIn es e xs = some node := h
      replace hwf : es.wfAll = true := hwf
      induction es using FsEntries.inductionOn with
      | nil => simp [FsEntries.resolveIn] at h
      | cons m d rest ihe =>
        obtain ⟨hg, hdup, hwc, hwr⟩ := wfAll_parts hwf
        simp only [FsEntries.resolveIn] at h
        by_cases hm : m = e
        · rw [if_pos hm] at h
          exact ih d hwc h
        · rw [if_neg hm] at h
          exact ihe h hwr

/-! ## Joined chart paths and their elements -/

theorem mk_data (s : String) : String.mk s.data = s := rfl

theorem joinGoCh_parts (es ps : List (List Char)) (hes : es ≠ []) (hps : ps ≠ [])
    (hges : ∀ t ∈ es, goodTok t = true) (hgps : ∀ p ∈ ps, goodTok p = true) :
    joinGoCh (joinSlashCh es :: ps) = joinSlashCh (es ++ ps) := by
  have hgall : ∀ t ∈ es ++ ps, goodTok t = true := by
    intro t ht
    rcases List.mem_append.mp ht with h | h
    · exact hges t h
    · exact hgps t h
  have hjne : joinSlashCh es ≠ [] := joinSlashCh_good_ne_nil es hes hges
  simp only [joinGoCh, if_neg hjne]
  rw [joinSlashCh_cons (joinSlashCh es) ps hps, ← joinSlashCh_append es ps hes hps]
  exact cleanCh_join_good _ (by simp [hes]) hgall

theorem goodName_map_data {fs : List String} (hgfs : ∀ f ∈ fs, goodName f = true) :
    ∀ t ∈ fs.map String.data, goodTok t = true := by
  intro t ht
  rcases List.mem_map.mp ht with ⟨f, hf, hft⟩
  exact hft ▸ hgfs f hf

theorem joinPath_parts_split (dir : String) (fs : List String)
    (hdir : goodPath dir = true) (hfs : fs ≠ [])
    (hgfs : ∀ f ∈ fs, goodName f = true) :
    splitSlashCh (joinPath (dir :: fs)).data =
      splitSlashCh dir.data ++ fs.map String.data := by
  obtain ⟨es, hes⟩ : ∃ es, splitSlashCh dir.data = es := ⟨_, rfl⟩
  have hges : ∀ t ∈ es, goodTok t = true := hes ▸ goodPath_toks hdir
  have hesne : es ≠ [] := hes ▸ splitSlashCh_ne_nil dir.data
  have hd : dir.data = joinSlashCh es := by
    rw [← hes]
    exact data_eq_join dir
  have hfsne : fs.map String.data ≠ [] := by simp [hfs]
  have hgall : ∀ t ∈ es ++ fs.map String.data, goodTok t = true := by
    intro t ht
    rcases List.mem_append.mp ht with h | h
    · exact hges t h
    · exact goodName_map_data hgfs t h
  have hjd : (joinPath (dir :: fs)).data = joinSlashCh (es ++ fs.map String.data) := by
    show joinGoCh (dir.data :: fs.map String.data) = _
    rw [hd]
    exact joinGoCh_parts es (fs.map String.data) hesne hfsne hges (goodName_map_data hgfs)
  rw [hjd, hes]
  exact splitSlashCh_joinSlashCh _ (by simp [hesne]) (fun t ht => goodTok_no_slash (hgall t ht))

theorem validPath_joinParts (dir : String) (fs : List String)
    (hdir : goodPath dir = true) (hfs : fs ≠ [])
    (hgfs : ∀ f ∈ fs, goodName f = true) :
    validPath (joinPath (dir :: fs)) = true := by
  apply validPath_of_good
  rw [joinPath_parts_split dir fs hdir hfs hgfs]
  intro t ht
  rcases List.mem_append.mp ht with h | h
  · exact goodPath_toks hdir t h
  · exact goodName_map_data hgfs t h

theorem pathElems_good_eq {s : String}
    (h : ∀ t ∈ splitSlashCh s.data, goodTok t = true) :
    pathElems s = (splitSlashCh s.data).map String.mk := by
  unfold pathElems
  rw [if_neg (good_ne_dot h)]

theorem pathElems_joinParts (dir : String) (fs : List String)
    (hdir : goodPath dir = true) (hfs : fs ≠ [])
    (hgfs : ∀ f ∈ fs, goodName f = true) :
    pathElems (joinPath (dir :: fs)) = pathElems dir ++ fs := by
  have hsplit := joinPath_parts_split dir fs hdir hfs hgfs
  have hgall : ∀ t ∈ splitSlashCh (joinPath (dir :: fs)).data, goodTok t = true := by
    rw [hsplit]
    intro t ht
    rcases List.mem_append.mp ht with h | h
    · exact goodPath_toks hdir t h
    · exact goodName_map_data hgfs t h
  rw [pathElems_good_eq hgall, pathElems_good_eq (goodPath_toks hdir), hsplit,
    List.map_append, List.map_map]
  have hid : (String.mk ∘ String.data) = (id : String → String) := funext (fun s => rfl)
  rw [hid, List.map_id]

/-! ## Read inversions -/

theorem readDir_ok_inv {root : FsNode} {name : String} {ds : List DirEntry}
    (h : root.readDir name = Except.ok ds) :
    ∃ tEs, root.resolve (pathElems name) = some (FsNode.dir tEs) ∧
      ds = tEs.listing := by
  unfold FsNode.readDir at h
  by_cases hv : validPath name = true
  · rw [if_pos hv] at h
    rcases hres : root.resolve (pathElems name) with _ | node
    · rw [hres] at h
      simp at h
    · cases node with
      | file d =>
        rw [hres] at h
        simp at h
      | dir tEs =>
        rw [hres] at h
        simp only [Except.ok.injEq] at h
        exact ⟨tEs, rfl, h.symm⟩
  · rw [if_neg hv] at h
    simp at h

theorem readFileBytes_resolve_file {root : FsNode} {name : String} {d : String}
    (hv : validPath name = true)
    (h : root.resolve (pathElems name) = some (FsNode.file d)) :
    root.readFileBytes name = Except.ok d := by
  unfold FsNode.readFileBytes
  rw [if_pos hv, h]

theorem readFileBytes_ok_inv {root : FsNode} {name : String} {d : String}
    (h : root.readFileBytes name = Except.ok d) :
    validPath name = true ∧ root.resolve (pathElems name) = some (FsNode.file d) := by
  unfold FsNode.readFileBytes at h
  by_cases hv : validPath name = true
  · rw [if_pos hv] at h
    rcases hres : root.resolve (pathElems name) with _ | node
    · rw [hres] at h
      simp at h
    · cases node with
      | file b =>
        rw [hres] at h
        simp only [Except.ok.injEq] at h
        subst h
        exact ⟨hv, rfl⟩
      | dir tEs =>
        rw [hres] at h
        simp at h
  · rw [if_neg hv] at h
    simp at h

theorem exceptOk_iff {ε α : Type} (r : Except ε α) :
    exceptOk r = true ↔ ∃ v, r = Except.ok v := by
  cases r with
  | ok v => simp [exceptOk]
  | error e => simp [exceptOk]

/-! ## Collector success characterization -/

/-- Content of a template file exactly as the collector reads it; the empty
default is never reached in the success lemmas below. -/
def tmplData (chart : FsNode) (dir : String) (d : DirEntry) : String :=
  match chart.readFileBytes (joinPath [dir, templatesDirName, d.name]) with
  | Except.ok b => b
  | Except.error _ => ""

theorem readRequired_pair (chart : FsNode) (dir : String) (b1 b2 : String)
    (hgood : goodPath dir = true)
    (hb1 : chart.readFileBytes (joinPath [dir, chartFileName]) = Except.ok b1)
    (hb2 : chart.readFileBytes (joinPath [dir, valuesFileName]) = Except.ok b2) :
    readRequired chart dir [chartFileName, valuesFileName] =
      Except.ok [{ Name := chartFileName, Data := b1 },
        { Name := valuesFileName, Data := b2 }] := by
  have h1 := readFile_root_file chart dir chartFileName hgood (by decide)
  rw [hb1] at h1
  have h2 := readFile_root_file chart dir valuesFileName hgood (by decide)
  rw [hb2] at h2
  show (do
      let file ← readFile chart (joinPath [dir, chartFileName]) dir
      let files ← readRequired chart dir [valuesFileName]
      pure (file :: files) : Except FsError (List BufferedFile)) = _
  rw [h1]
  show (do
      let files ← (do
        let file ← readFile chart (joinPath [dir, valuesFileName]) dir
        let files ← readRequired chart dir []
        pure (file :: files) : Except FsError (List BufferedFile))
      pure ({ Name := chartFileName, Data := b1 } :: files) :
        Except FsError (List BufferedFile)) = _
  rw [h2]
  rfl

theorem listing_cons (n : String) (c : FsNode) (rest : FsEntries) :
    FsEntries.listing (FsEntries.cons n c rest) =
      { name := n, isDir := c.isDirB } :: rest.listing := rfl

theorem readTemplates_spine (chart : FsNode) (dir : String) (tEs0 : FsEntries)
    (hgood : goodPath dir = true)
    (hres0 : chart.resolve (pathElems dir ++ [templatesDirName]) =
      some (FsNode.dir tEs0))
    (hwf0 : tEs0.wfAll = true) :
    ∀ (sub : FsEntries), (∀ p ∈ sub.toList, p ∈ tEs0.toList) →
      readTemplates chart dir sub.listing = Except.ok
        ((sub.listing.filter (fun d => !d.isDir)).map
          (fun d => { Name := templatesDirName ++ "/" ++ d.name,
                      Data := tmplData chart dir d })) ∧
      (∀ d ∈ sub.listing.filter (fun d => !d.isDir),
        chart.readFileBytes (joinPath [dir, templatesDirName, d.name]) =
          Except.ok (tmplData chart dir d)) := by
  intro sub
  induction sub using FsEntries.inductionOn with
  | nil =>
    intro hsub
    exact ⟨rfl, by simp [FsEntries.listing]⟩
  | cons n c rest ih =>
    intro hsub
    have hmem : (n, c) ∈ tEs0.toList := hsub (n, c) (by simp [FsEntries.toList])
    have hrest : ∀ p ∈ rest.toList, p ∈ tEs0.toList := fun p hp =>
      hsub p (List.mem_cons_of_mem _ hp)
    obtain ⟨ihl, ihr⟩ := ih hrest
    have hfind : FsEntries.resolveIn tEs0 n [] = some c := resolveIn_mem hwf0 hmem
    have hgname : goodName n = true := (wf_entry hwf0 hmem).1
    have hresolve : chart.resolve ((pathElems dir ++ [templatesDirName]) ++ [n]) =
        some c := by
      rw [resolve_append, hres0]
      exact hfind
    cases c with
    | dir ces =>
      rw [listing_cons]
      simp only [FsNode.isDirB]
      constructor
      · show readTemplates chart dir ({ name := n, isDir := true } :: rest.listing) = _
        have hskip : readTemplates chart dir
            ({ name := n, isDir := true } :: rest.listing) =
            readTemplates chart dir rest.listing := rfl
        rw [hskip, ihl]
        have hfil : ({ name := n, isDir := true } :: rest.listing).filter
            (fun d => !d.isDir) = rest.listing.filter (fun d => !d.isDir) := by
          simp [List.filter]
        rw [hfil]
      · intro d hd
        have hfil : ({ name := n, isDir := true } :: rest.listing).filter
            (fun d => !d.isDir) = rest.listing.filter (fun d => !d.isDir) := by
          simp [List.filter]
        rw [hfil] at hd
        exact ihr d hd
    | file b =>
      have hpair : ∀ f ∈ [templatesDirName, n], goodName f = true := by
        intro f hf
        rcases List.mem_cons.mp hf with h1 | h1
        · exact h1 ▸ (by decide)
        · simp only [List.mem_singleton] at h1
          exact h1 ▸ hgname
      have hpe : pathElems (joinPath [dir, templatesDirName, n]) =
          (pathElems dir ++ [templatesDirName]) ++ [n] := by
        rw [pathElems_joinParts dir [templatesDirName, n] hgood (by simp) hpair]
        simp
      have hvp : validPath (joinPath [dir, templatesDirName, n]) = true :=
        validPath_joinParts dir [templatesDirName, n] hgood (by simp) hpair
      have hrb : chart.readFileBytes (joinPath [dir, templatesDirName, n]) =
          Except.ok b := by
        apply readFileBytes_resolve_file hvp
        rw [hpe]
        exact hresolve
      have htd : tmplData chart dir { name := n, isDir := false } = b := by
        unfold tmplData
        rw [show ({ name := n, isDir := false } : DirEntry).name = n from rfl, hrb]
      rw [listing_cons]
      simp only [FsNode.isDirB]
      have hfil : ({ name := n, isDir := false } ::
          rest.listing).filter (fun d => !d.isDir) =
          { name := n, isDir := false } :: rest.listing.filter (fun d => !d.isDir) := by
        simp [List.filter]
      constructor
      · have hrf := readFile_tmpl_file chart dir n hgood hgname
        rw [hrb] at hrf
        show readTemplates chart dir ({ name := n, isDir := false } :: rest.listing) = _
        have hstep : readTemplates chart dir
            ({ name := n, isDir := false } :: rest.listing) = (do
              let file ← readFile chart
                (joinPath [dir, templatesDirName, n]) dir
              let files ← readTemplates chart dir rest.listing
              pure (file :: files) : Except FsError (List BufferedFile)) := rfl
        rw [hstep, hrf, ihl, hfil]
        show Except.ok _ = _
        rw [List.map_cons]
        rw [show ({ name := n, isDir := false } : DirEntry).name = n from rfl, htd]
      · intro d hd
        rw [hfil] at hd
        rcases List.mem_cons.mp hd with h1 | h1
        · subst h1
          rw [show ({ name := n, isDir := false } : DirEntry).name = n from rfl, htd, hrb]
        · exact ihr d h1

theorem readChartFiles_shape (chart : FsNode) (dir : String)
    (hwf : chart.wf = true) (hgood : goodPath dir = true)
    (hvalid : validChartAt chart dir = true) :
    ∃ b1 b2 ds,
      chart.readDir (joinPath [dir, templatesDirName]) = Except.ok ds ∧
      chart.readFileBytes (joinPath [dir, chartFileName]) = Except.ok b1 ∧
      chart.readFileBytes (joinPath [dir, valuesFileName]) = Except.ok b2 ∧
      (∀ d ∈ ds.filter (fun d => !d.isDir),
        chart.readFileBytes (joinPath [dir, templatesDirName, d.name]) =
          Except.ok (tmplData chart dir d)) ∧
      readChartFiles chart dir = Except.ok
        ({ Name := chartFileName, Data := b1 } ::
          { Name := valuesFileName, Data := b2 } ::
          (ds.filter (fun d => !d.isDir)).map
            (fun d => { Name := templatesDirName ++ "/" ++ d.name,
                        Data := tmplData chart dir d })) := by
  unfold validChartAt at hvalid
  simp only [Bool.and_eq_true] at hvalid
  obtain ⟨⟨hv1, hv2⟩, hv3⟩ := hvalid
  obtain ⟨b1, hb1⟩ := (exceptOk_iff _).mp hv1
  obtain ⟨b2, hb2⟩ := (exceptOk_iff _).mp hv2
  obtain ⟨ds, hds⟩ := (exceptOk_iff _).mp hv3
  obtain ⟨tEs, hres, hlist⟩ := readDir_ok_inv hds
  have hpe : pathElems (joinPath [dir, templatesDirName]) =
      pathElems dir ++ [templatesDirName] := by
    apply pathElems_joinParts dir [templatesDirName] hgood (by simp)
    intro f hf
    simp only [List.mem_singleton] at hf
    subst hf
    decide
  rw [hpe] at hres
  have hwfe : tEs.wfAll = true := wf_resolve _ chart (FsNode.dir tEs) hwf hres
  obtain ⟨hTl, hTr⟩ :=
    readTemplates_spine chart dir tEs hgood hres hwfe tEs (fun p hp => hp)
  refine ⟨b1, b2, ds, hds, hb1, hb2, ?_, ?_⟩
  · rw [hlist]
    exact hTr
  · unfold readChartFiles
    rw [readRequired_pair chart dir b1 b2 hgood hb1 hb2, hds, hlist]
    show (do
        let tmpl ← readTemplates chart dir tEs.listing
        pure ([{ Name := chartFileName, Data := b1 },
          { Name := valuesFileName, Data := b2 }] ++ tmpl) :
        Except FsError (List BufferedFile)) = _
    rw [hTl]
    rfl

/-! ## Uniqueness of a named template entry -/

theorem filter_map_eq {α β : Type} (f : α → β) (p : β → Bool) (l : List α) :
    (l.map f).filter p = (l.filter (fun x => p (f x))).map f := by
  induction l with
  | nil => rfl
  | cons x xs ih =>
    simp only [List.map_cons, List.filter]
    cases hp : p (f x) with
    | true => simp [ih]
    | false => simp [ih]

theorem string_append_cancel {s r u : String} (h : s ++ r = s ++ u) : r = u := by
  have hd : s.data ++ r.data = s.data ++ u.data := congrArg String.data h
  have := List.append_cancel_left hd
  rw [← mk_data r, ← mk_data u, this]

theorem resolveIn_found_mem {es : FsEntries} {n : String} {c : FsNode}
    (h : FsEntries.resolveIn es n [] = some c) : (n, c) ∈ es.toList := by
  induction es using FsEntries.inductionOn with
  | nil => simp [FsEntries.resolveIn] at h
  | cons m d rest ih =>
    simp only [FsEntries.resolveIn] at h
    by_cases hm : m = n
    · rw [if_pos hm] at h
      have hd : FsNode.resolve d [] = some d := by cases d <;> rfl
      rw [hd] at h
      simp only [Option.some.injEq] at h
      subst h
      subst hm
      simp [FsEntries.toList]
    · rw [if_neg hm] at h
      exact List.mem_cons_of_mem _ (ih h)

theorem listing_filter_nil {es : FsEntries} {n : String}
    (h : FsEntries.hasName es n = false) :
    es.listing.filter (fun d => d.name = n && !d.isDir) = [] := by
  induction es using FsEntries.inductionOn with
  | nil => rfl
  | cons m c rest ih =>
    simp only [FsEntries.hasName, Bool.or_eq_false_iff] at h
    rw [listing_cons]
    have hm : ¬(m = n) := by
      intro hc
      rw [hc] at h
      simp at h
    simp [List.filter_cons, hm, ih h.2]

theorem listing_filter_unique {es : FsEntries} {n : String} {b : String}
    (hwf : es.wfAll = true) (hmem : (n, FsNode.file b) ∈ es.toList) :
    es.listing.filter (fun d => d.name = n && !d.isDir) =
      [{ name := n, isDir := false }] := by
  induction es using FsEntries.inductionOn with
  | nil => simp [FsEntries.toList] at hmem
  | cons m c rest ih =>
    obtain ⟨hg, hdup, hwc, hwr⟩ := wfAll_parts hwf
    simp only [FsEntries.toList, List.mem_cons] at hmem
    rw [listing_cons]
    rcases hmem with heq | hmem
    · have h1 : n = m := congrArg Prod.fst heq
      have h2 : FsNode.file b = c := congrArg Prod.snd heq
      subst h1
      rw [← h2]
      simp [List.filter_cons, FsNode.isDirB, listing_filter_nil hdup]
    · have hm : ¬(m = n) := by
        intro hc
        subst hc
        rw [hasName_of_mem hmem] at hdup
        exact Bool.noConfusion hdup
      simp [List.filter_cons, hm, ih hwr hmem]

/-! ## Concrete scenario trees -/

/-- Templates listing of the specification scenario: one regular file and one
sub-directory, in that stored order. -/
def demoTemplates : FsEntries :=
  FsEntries.cons "svc.yaml" (FsNode.file "kind: Service")
    (FsEntries.cons "sub" (FsNode.dir FsEntries.nil) FsEntries.nil)

/-- Chart directory of the specification scenario. -/
def demoChartDir : FsEntries :=
  FsEntries.cons "Chart.yaml" (FsNode.file "name: demo")
    (FsEntries.cons "values.yaml" (FsNode.file "replicas: 1")
      (FsEntries.cons "templates" (FsNode.dir demoTemplates) FsEntries.nil))

/-- The scenario tree: the chart nested at `charts/demo`. -/
def demoTree : FsNode :=
  FsNode.dir (FsEntries.cons "charts"
    (FsNode.dir (FsEntries.cons "demo" (FsNode.dir demoChartDir) FsEntries.nil))
    FsEntries.nil)

/-- The scenario tree with `values.yaml` missing from the chart root. -/
def demoTreeNoValues : FsNode :=
  FsNode.dir (FsEntries.cons "charts"
    (FsNode.dir (FsEntries.cons "demo"
      (FsNode.dir (FsEntries.cons "Chart.yaml" (FsNode.file "name: demo")
        (FsEntries.cons "templates" (FsNode.dir demoTemplates) FsEntries.nil)))
      FsEntries.nil)) FsEntries.nil)

/-- The scenario tree with no `templates` directory at the chart root. -/
def demoTreeNoTemplates : FsNode :=
  FsNode.dir (FsEntries.cons "charts"
    (FsNode.dir (FsEntries.cons "demo"
      (FsNode.dir (FsEntries.cons "Chart.yaml" (FsNode.file "name: demo")
        (FsEntries.cons "values.yaml" (FsNode.file "replicas: 1") FsEntries.nil)))
      FsEntries.nil)) FsEntries.nil)

/-- The scenario tree with an extra template file `templates/x.yaml`. -/
def demoTreeX : FsNode :=
  FsNode.dir (FsEntries.cons "charts"
    (FsNode.dir (FsEntries.cons "demo"
      (FsNode.dir (FsEntries.cons "Chart.yaml" (FsNode.file "name: demo")
        (FsEntries.cons "values.yaml" (FsNode.file "replicas: 1")
          (FsEntries.cons "templates"
            (FsNode.dir (FsEntries.cons "x.yaml" (FsNode.file "content-B")
              (FsEntries.cons "sub" (FsNode.dir FsEntries.nil) FsEntries.nil)))
            FsEntries.nil)))) FsEntries.nil)) FsEntries.nil)

/-! ## The claims -/

/-- C1: for every well-formed embedded tree holding a valid chart at a
well-formed `chartDirName` — however deeply nested — `readChartFiles` succeeds
and the collected names are exactly `Chart.yaml`, then `values.yaml`, then
`templates/<base>` for each regular template file: every name is the path
relative to `chartDirName` and never carries the `chartDirName` prefix. -/
theorem C1_names_relative (chart : FsNode) (dir : String)
    (hwf : chart.wf = true) (hgood : goodPath dir = true)
    (hvalid : validChartAt chart dir = true) :
    ∃ files ds,
      readChartFiles chart dir = Except.ok files ∧
      chart.readDir (joinPath [dir, templatesDirName]) = Except.ok ds ∧
      files.map BufferedFile.Name =
        chartFileName :: valuesFileName ::
          (ds.filter (fun d => !d.isDir)).map
            (fun d => templatesDirName ++ "/" ++ d.name) := by
  obtain ⟨b1, b2, ds, hds, hb1, hb2, hTr, hrun⟩ :=
    readChartFiles_shape chart dir hwf hgood hvalid
  refine ⟨_, ds, hrun, hds, ?_⟩
  simp [List.map_map, Function.comp]

/-- C2: on the specification scenario — `charts/demo/Chart.yaml` =
`"name: demo"`, `charts/demo/values.yaml` = `"replicas: 1"`,
`charts/demo/templates/svc.yaml` = `"kind: Service"` and a sub-directory
`charts/demo/templates/sub/` — the collector returns exactly the three entries
`Chart.yaml`, `values.yaml`, `templates/svc.yaml` in that order, with the
templates file in listing order and nothing else inserted. -/
theorem C2_scenario_exact :
    readChartFiles demoTree "charts/demo" = Except.ok
      [{ Name := "Chart.yaml", Data := "name: demo" },
       { Name := "values.yaml", Data := "replicas: 1" },
       { Name := "templates/svc.yaml", Data := "kind: Service" }] := by
  decide

/-- C3: a failing required read aborts the collection with that exact error
and no partial result: a `Chart.yaml` read error surfaces unconditionally, and
a `values.yaml` read error surfaces whenever `Chart.yaml` itself read fine —
the fixed order `Chart.yaml` then `values.yaml`, first failure wins. -/
theorem C3_required_failure (chart : FsNode) (dir : String)
    (hgood : goodPath dir = true) :
    (∀ e, chart.readFileBytes (joinPath [dir, chartFileName]) = Except.error e →
      readChartFiles chart dir = Except.error e) ∧
    (∀ b e, chart.readFileBytes (joinPath [dir, chartFileName]) = Except.ok b →
      chart.readFileBytes (joinPath [dir, valuesFileName]) = Except.error e →
      readChartFiles chart dir = Except.error e) := by
  constructor
  · intro e he
    have h1 : readFile chart (joinPath [dir, chartFileName]) dir = Except.error e := by
      unfold readFile
      rw [he]
      rfl
    have h2 : readRequired chart dir [chartFileName, valuesFileName] =
        Except.error e := by
      show (do
        let file ← readFile chart (joinPath [dir, chartFileName]) dir
        let files ← readRequired chart dir [valuesFileName]
        pure (file :: files) : Except FsError (List BufferedFile)) = _
      rw [h1]
      rfl
    unfold readChartFiles
    rw [h2]
    rfl
  · intro b e hb he
    have h1 := readFile_root_file chart dir chartFileName hgood (by decide)
    rw [hb] at h1
    have h2 : readFile chart (joinPath [dir, valuesFileName]) dir =
        Except.error e := by
      unfold readFile
      rw [he]
      rfl
    have h3 : readRequired chart dir [chartFileName, valuesFileName] =
        Except.error e := by
      show (do
        let file ← readFile chart (joinPath [dir, chartFileName]) dir
        let files ← readRequired chart dir [valuesFileName]
        pure (file :: files) : Except FsError (List BufferedFile)) = _
      rw [h1]
      show (do
        let files ← (do
          let file ← readFile chart (joinPath [dir, valuesFileName]) dir
          let files ← readRequired chart dir ([] : List String)
          pure (file :: files) : Except FsError (List BufferedFile))
        pure ({ Name := chartFileName, Data := b } :: files) :
          Except FsError (List BufferedFile)) = _
      rw [h2]
      rfl
    unfold readChartFiles
    rw [h3]
    rfl

/-- C4: when both required files read fine but the templates directory cannot
be listed, the collector fails with exactly the propagated directory-read
error — a missing `templates` directory is never treated as zero templates. -/
theorem C4_templates_hard_failure (chart : FsNode) (dir : String)
    (b1 b2 : String) (e : FsError) (hgood : goodPath dir = true)
    (hb1 : chart.readFileBytes (joinPath [dir, chartFileName]) = Except.ok b1)
    (hb2 : chart.readFileBytes (joinPath [dir, valuesFileName]) = Except.ok b2)
    (hd : chart.readDir (joinPath [dir, templatesDirName]) = Except.error e) :
    readChartFiles chart dir = Except.error e := by
  unfold readChartFiles
  rw [readRequired_pair chart dir b1 b2 hgood hb1 hb2, hd]
  rfl

theorem filter_congr_own {α : Type} {p q : α → Bool} :
    ∀ (l : List α), (∀ x ∈ l, p x = q x) → l.filter p = l.filter q := by
  intro l
  induction l with
  | nil => intro h; rfl
  | cons x xs ih =>
    intro h
    rw [List.filter_cons, List.filter_cons, h x (by simp),
      ih (fun y hy => h y (List.mem_cons_of_mem _ hy))]

theorem forall2_map_self {α β : Type} (R : α → β → Prop) (f : α → β)
    (l : List α) (h : ∀ x ∈ l, R x (f x)) : List.Forall₂ R l (l.map f) := by
  induction l with
  | nil => constructor
  | cons x xs ih =>
    exact List.Forall₂.cons (h x (by simp))
      (ih (fun y hy => h y (List.mem_cons_of_mem _ hy)))

/-- C5: on a well-formed tree with a valid chart, the template part of the
collector output corresponds one-to-one, in listing order, with the non-dir
entries of the templates listing: every sub-directory entry is excluded, every
regular file appears exactly once, named `templates/<base>` relative to the
chart root and carrying exactly that file's bytes. -/
theorem C5_templates_files_exact (chart : FsNode) (dir : String)
    (hwf : chart.wf = true) (hgood : goodPath dir = true)
    (hvalid : validChartAt chart dir = true) :
    ∃ b1 b2 ds tmpl,
      chart.readDir (joinPath [dir, templatesDirName]) = Except.ok ds ∧
      readChartFiles chart dir = Except.ok
        ({ Name := chartFileName, Data := b1 } ::
          { Name := valuesFileName, Data := b2 } :: tmpl) ∧
      List.Forall₂ (fun (d : DirEntry) (bf : BufferedFile) =>
          bf.Name = templatesDirName ++ "/" ++ d.name ∧
          chart.readFileBytes (joinPath [dir, templatesDirName, d.name]) =
            Except.ok bf.Data)
        (ds.filter (fun d => !d.isDir)) tmpl := by
  obtain ⟨b1, b2, ds, hds, hb1, hb2, hTr, hrun⟩ :=
    readChartFiles_shape chart dir hwf hgood hvalid
  refine ⟨b1, b2, ds, _, hds, hrun, ?_⟩
  apply forall2_map_self
  intro d hd
  exact ⟨rfl, hTr d hd⟩

/-- C6: if the tree holds a regular file `templates/x.yaml` with content `B`
at a valid chart root, the collector output contains exactly one entry named
`templates/x.yaml`, and its data is byte-identical to `B`. -/
theorem C6_roundtrip_unique (chart : FsNode) (dir B : String)
    (hwf : chart.wf = true) (hgood : goodPath dir = true)
    (hvalid : validChartAt chart dir = true)
    (hfile : chart.readFileBytes (joinPath [dir, templatesDirName, "x.yaml"]) =
      Except.ok B) :
    ∃ files,
      readChartFiles chart dir = Except.ok files ∧
      files.filter (fun bf => bf.Name = templatesDirName ++ "/" ++ "x.yaml") =
        [{ Name := templatesDirName ++ "/" ++ "x.yaml", Data := B }] := by
  obtain ⟨b1, b2, ds, hds, hb1, hb2, hTr, hrun⟩ :=
    readChartFiles_shape chart dir hwf hgood hvalid
  obtain ⟨tEs, hres, hlist⟩ := readDir_ok_inv hds
  have hpe : pathElems (joinPath [dir, templatesDirName]) =
      pathElems dir ++ [templatesDirName] := by
    apply pathElems_joinParts dir [templatesDirName] hgood (by simp)
    intro f hf
    simp only [List.mem_singleton] at hf
    subst hf
    decide
  rw [hpe] at hres
  have hwfe : tEs.wfAll = true := wf_resolve _ chart (FsNode.dir tEs) hwf hres
  obtain ⟨hvp, hresolve⟩ := readFileBytes_ok_inv hfile
  have hpair : ∀ f ∈ [templatesDirName, ("x.yaml" : String)], goodName f = true := by
    intro f hf
    rcases List.mem_cons.mp hf with h1 | h1
    · exact h1 ▸ (by decide)
    · simp only [List.mem_singleton] at h1
      exact h1 ▸ (by decide)
  have hpe2 : pathElems (joinPath [dir, templatesDirName, "x.yaml"]) =
      (pathElems dir ++ [templatesDirName]) ++ ["x.yaml"] := by
    rw [pathElems_joinParts dir [templatesDirName, "x.yaml"] hgood (by simp) hpair]
    simp
  rw [hpe2, resolve_append, hres] at hresolve
  have hfind : FsEntries.resolveIn tEs "x.yaml" [] = some (FsNode.file B) :=
    hresolve
  have hmem := resolveIn_found_mem hfind
  have huniq := listing_filter_unique hwfe hmem
  refine ⟨_, hrun, ?_⟩
  rw [List.filter_cons, List.filter_cons]
  rw [show (({ Name := chartFileName, Data := b1 } : BufferedFile).Name) =
    chartFileName from rfl]
  rw [show (({ Name := valuesFileName, Data := b2 } : BufferedFile).Name) =
    valuesFileName from rfl]
  rw [show (decide (chartFileName = templatesDirName ++ "/" ++ "x.yaml")) =
    false from by decide]
  rw [show (decide (valuesFileName = templatesDirName ++ "/" ++ "x.yaml")) =
    false from by decide]
  simp only [Bool.false_eq_true, if_false]
  rw [filter_map_eq]
  show ((ds.filter (fun d => !d.isDir)).filter
      (fun d => decide (templatesDirName ++ "/" ++ d.name =
        templatesDirName ++ "/" ++ "x.yaml"))).map
      (fun d => ({ Name := templatesDirName ++ "/" ++ d.name,
                   Data := tmplData chart dir d } : BufferedFile)) =
    [({ Name := templatesDirName ++ "/" ++ "x.yaml", Data := B } : BufferedFile)]
  have hcongr : (ds.filter (fun d => !d.isDir)).filter
      (fun d => decide (templatesDirName ++ "/" ++ d.name =
        templatesDirName ++ "/" ++ "x.yaml")) =
      (ds.filter (fun d => !d.isDir)).filter
        (fun d => decide (d.name = "x.yaml")) := by
    apply filter_congr_own
    intro d hd
    apply decide_eq_decide.mpr
    constructor
    · intro h
      exact string_append_cancel h
    · intro h
      rw [h]
  rw [hcongr, hlist, List.filter_filter]
  have hpred : (tEs.listing.filter
      (fun d => decide (d.name = "x.yaml") && !d.isDir)) =
      [{ name := "x.yaml", isDir := false }] := huniq
  rw [hpred]
  simp only [List.map_cons, List.map_nil]
  have htd : tmplData chart dir { name := "x.yaml", isDir := false } = B := by
    unfold tmplData
    rw [show ({ name := "x.yaml", isDir := false } : DirEntry).name =
      "x.yaml" from rfl, hfile]
  rw [htd]

/-- C7: the collector is deterministic and stateless — two runs on the same
unchanged tree with the same chart directory produce identical results, both
on success (same names, order and bytes) and on failure (same error). -/
theorem C7_deterministic (chart : FsNode) (dir : String)
    (r1 r2 : Except FsError (List BufferedFile))
    (h1 : readChartFiles chart dir = r1) (h2 : readChartFiles chart dir = r2) :
    r1 = r2 := by
  rw [← h1, ← h2]

/-- C8: with a well-formed chart directory and any well-formed relative
suffix — the only shapes `readChartFiles` ever passes — path relativization
recovers exactly the suffix and its error branch is unreachable. -/
theorem C8_rel_never_fails (dir f : String)
    (hdir : goodPath dir = true) (hf : goodPath f = true) :
    relPath dir (joinPath [dir, f]) = Except.ok f := by
  obtain ⟨es, hes⟩ : ∃ es, splitSlashCh dir.data = es := ⟨_, rfl⟩
  obtain ⟨fs, hfs⟩ : ∃ fs, splitSlashCh f.data = fs := ⟨_, rfl⟩
  have hges : ∀ t ∈ es, goodTok t = true := hes ▸ goodPath_toks hdir
  have hgfs : ∀ t ∈ fs, goodTok t = true := hfs ▸ goodPath_toks hf
  have hesne : es ≠ [] := hes ▸ splitSlashCh_ne_nil dir.data
  have hfsne : fs ≠ [] := hfs ▸ splitSlashCh_ne_nil f.data
  have hd : dir.data = joinSlashCh es := by
    rw [← hes]
    exact data_eq_join dir
  have hfd : f.data = joinSlashCh fs := by
    rw [← hfs]
    exact data_eq_join f
  have hjp : (joinPath [dir, f]).data = joinSlashCh (es ++ fs) := by
    show joinGoCh [dir.data, f.data] = _
    rw [hd, hfd]
    exact joinGoCh_two es fs hesne hfsne hges hgfs
  unfold relPath
  rw [hjp, hd, relCh_good es fs hesne hfsne hges hgfs, ← hfd]

/-- C9: `FetchChartValues` initializes the action configuration for the
namespace and then performs exactly one status query for the release name:
the external-call trace is `[init, statusQuery]` once initialization yields a
configuration and just `[init]` when initialization fails; the result is the
release's recorded configuration values on success and the propagated error
otherwise — no retries, no caching, no default substitution. -/
theorem C9_fetch_single_query {Cfg E V : Type} (env : HelmEnv Cfg E V)
    (ns name : String) :
    (∀ cfg, env.initActionConfig env.newConfig ns = Except.ok cfg →
      (FetchChartValues env ns name).2 =
        [HelmCall.initConfig ns, HelmCall.statusQuery cfg name] ∧
      (FetchChartValues env ns name).1 =
        (env.statusRun cfg name).map Release.Config) ∧
    (∀ e, env.initActionConfig env.newConfig ns = Except.error e →
      (FetchChartValues env ns name).2 = [HelmCall.initConfig ns] ∧
      (FetchChartValues env ns name).1 = Except.error e) := by
  constructor
  · intro cfg hcfg
    cases hs : env.statusRun cfg name with
    | error e =>
      exact ⟨by simp [FetchChartValues, hcfg, hs],
        by simp [FetchChartValues, hcfg, hs, Except.map]⟩
    | ok r =>
      exact ⟨by simp [FetchChartValues, hcfg, hs],
        by simp [FetchChartValues, hcfg, hs, Except.map]⟩
  · intro e he
    exact ⟨by simp [FetchChartValues, he], by simp [FetchChartValues, he]⟩

/-- C10: the unexported helper `a` is extensionally the status-query portion
of `FetchChartValues`: whenever initialization succeeds with a configuration,
`FetchChartValues` returns exactly what `a` returns on that configuration and
release name. -/
theorem C10_a_refines_fetch {Cfg E V : Type} (env : HelmEnv Cfg E V)
    (ns name : String) (cfg : Cfg)
    (hcfg : env.initActionConfig env.newConfig ns = Except.ok cfg) :
    (FetchChartValues env ns name).1 = a env cfg name := by
  cases hs : env.statusRun cfg name with
  | error e => simp [FetchChartValues, a, hcfg, hs]
  | ok r => simp [FetchChartValues, a, hcfg, hs]

/-! ## Witnesses -/

/-- A concrete Helm environment whose initialization succeeds, used by the
witnesses. -/
def natEnv : HelmEnv Nat String Nat :=
  { initActionConfig := fun c ns => Except.ok (c + ns.length)
    statusRun := fun cfg name => Except.ok { Config := cfg + name.length }
    newConfig := 0 }

theorem C1_witness :
    FsNode.wf demoTree = true ∧ goodPath "charts/demo" = true ∧
    validChartAt demoTree "charts/demo" = true ∧
    (∃ files ds,
      readChartFiles demoTree "charts/demo" = Except.ok files ∧
      FsNode.readDir demoTree (joinPath ["charts/demo", templatesDirName]) =
        Except.ok ds ∧
      files.map BufferedFile.Name =
        chartFileName :: valuesFileName ::
          (ds.filter (fun d => !d.isDir)).map
            (fun d => templatesDirName ++ "/" ++ d.name)) :=
  ⟨by decide, by decide, by decide,
    C1_names_relative demoTree "charts/demo" (by decide) (by decide) (by decide)⟩

theorem C3_witness :
    goodPath "charts/demo" = true ∧
    readChartFiles demoTreeNoValues "charts/demo" =
      Except.error (FsError.notFound "charts/demo/values.yaml") :=
  ⟨by decide,
    (C3_required_failure demoTreeNoValues "charts/demo" (by decide)).2
      "name: demo" (FsError.notFound "charts/demo/values.yaml")
      (by decide) (by decide)⟩

theorem C4_witness :
    goodPath "charts/demo" = true ∧
    readChartFiles demoTreeNoTemplates "charts/demo" =
      Except.error (FsError.notFound "charts/demo/templates") :=
  ⟨by decide,
    C4_templates_hard_failure demoTreeNoTemplates "charts/demo"
      "name: demo" "replicas: 1" (FsError.notFound "charts/demo/templates")
      (by decide) (by decide) (by decide) (by decide)⟩

theorem C5_witness :
    FsNode.wf demoTree = true ∧ goodPath "charts/demo" = true ∧
    validChartAt demoTree "charts/demo" = true ∧
    (∃ b1 b2 ds tmpl,
      FsNode.readDir demoTree (joinPath ["charts/demo", templatesDirName]) =
        Except.ok ds ∧
      readChartFiles demoTree "charts/demo" = Except.ok
        ({ Name := chartFileName, Data := b1 } ::
          { Name := valuesFileName, Data := b2 } :: tmpl) ∧
      List.Forall₂ (fun (d : DirEntry) (bf : BufferedFile) =>
          bf.Name = templatesDirName ++ "/" ++ d.name ∧
          FsNode.readFileBytes demoTree
            (joinPath ["charts/demo", templatesDirName, d.name]) =
            Except.ok bf.Data)
        (ds.filter (fun d => !d.isDir)) tmpl) :=
  ⟨by decide, by decide, by decide,
    C5_templates_files_exact demoTree "charts/demo"
      (by decide) (by decide) (by decide)⟩

theorem C6_witness :
    FsNode.readFileBytes demoTreeX
      (joinPath ["charts/demo", templatesDirName, "x.yaml"]) =
      Except.ok "content-B" ∧
    (∃ files,
      readChartFiles demoTreeX "charts/demo" = Except.ok files ∧
      files.filter (fun bf => bf.Name = templatesDirName ++ "/" ++ "x.yaml") =
        [{ Name := templatesDirName ++ "/" ++ "x.yaml", Data := "content-B" }]) :=
  ⟨by decide,
    C6_roundtrip_unique demoTreeX "charts/demo" "content-B"
      (by decide) (by decide) (by decide) (by decide)⟩

theorem C7_witness :
    (Except.ok [{ Name := "Chart.yaml", Data := "name: demo" },
      { Name := "values.yaml", Data := "replicas: 1" },
      { Name := "templates/svc.yaml", Data := "kind: Service" }] :
      Except FsError (List BufferedFile)) =
    Except.ok [{ Name := "Chart.yaml", Data := "name: demo" },
      { Name := "values.yaml", Data := "replicas: 1" },
      { Name := "templates/svc.yaml", Data := "kind: Service" }] :=
  C7_deterministic demoTree "charts/demo" _ _ (by decide) (by decide)

theorem C8_witness :
    goodPath "charts/demo" = true ∧ goodPath "templates/svc.yaml" = true ∧
    relPath "charts/demo" (joinPath ["charts/demo", "templates/svc.yaml"]) =
      Except.ok "templates/svc.yaml" :=
  ⟨by decide, by decide,
    C8_rel_never_fails "charts/demo" "templates/svc.yaml" (by decide) (by decide)⟩

theorem C9_witness :
    natEnv.initActionConfig natEnv.newConfig "ns" = Except.ok 2 ∧
    ((FetchChartValues natEnv "ns" "rel").2 =
      [HelmCall.initConfig "ns", HelmCall.statusQuery 2 "rel"] ∧
     (FetchChartValues natEnv "ns" "rel").1 =
      (natEnv.statusRun 2 "rel").map Release.Config) :=
  ⟨rfl, (C9_fetch_single_query natEnv "ns" "rel").1 2 rfl⟩

theorem C10_witness :
    natEnv.initActionConfig natEnv.newConfig "ns" = Except.ok 2 ∧
    (FetchChartValues natEnv "ns" "rel").1 = a natEnv 2 "rel" :=
  ⟨rfl, C10_a_refines_fetch natEnv "ns" "rel" 2 rfl⟩

end ConsulHelm
